import Mathlib

/-!
Shallow embedding of the query-translation core of `shodan_ai_stable.py`
(repository Shodan_AI). Python strings are modelled as `List Char`
(Unicode code points, as in Python). The functions below mirror, line by
line, the source functions `translate_query_heuristic`,
`translate_query_openai` and `translate_query`.
-/

namespace ShodanAI

/-- Characters treated as whitespace by Python's `str.split()` / `str.strip()`
(the ASCII whitespace subset: space, tab, newline, carriage return,
vertical tab, form feed). -/
def isPySpace (c : Char) : Bool :=
  c == ' ' || c == '\t' || c == '\n' || c == '\r' || c.toNat == 11 || c.toNat == 12

/-- Per-character lowercasing as Python's `str.lower()` performs it on the
Latin-1 range: ASCII `A`-`Z` and the accented uppercase letters `À`-`Þ`
(except `×`) map down by 32; every other code point is unchanged. -/
def lowerChar (c : Char) : Char :=
  if 65 ≤ c.toNat ∧ c.toNat ≤ 90 then Char.ofNat (c.toNat + 32)
  else if 192 ≤ c.toNat ∧ c.toNat ≤ 222 ∧ c.toNat ≠ 215 then Char.ofNat (c.toNat + 32)
  else c

/-- `question.lower()`. -/
def pyLower (s : List Char) : List Char := s.map lowerChar

/-- `strPre n h` holds when `n` starts `h` (used to define substring search). -/
def strPre : List Char → List Char → Bool
  | [], _ => true
  | _ :: _, [] => false
  | a :: as, b :: bs => a == b && strPre as bs

/-- Python's substring test `n in h`. -/
def isSubstr : List Char → List Char → Bool
  | n, [] => n.isEmpty
  | n, h@(_ :: t) => strPre n h || isSubstr n t

/-- Number of positions of `h` at which `n` occurs as a substring. -/
def countOccur : List Char → List Char → Nat
  | n, [] => if strPre n [] then 1 else 0
  | n, h@(_ :: t) => (if strPre n h then 1 else 0) + countOccur n t

/-- Helper for `pySplit`: scan the string keeping the current word reversed
in `acc`; whitespace closes the pending word, if any. -/
def pySplitAux : List Char → List Char → List (List Char)
  | [], acc => if acc.isEmpty then [] else [acc.reverse]
  | c :: cs, acc =>
    if isPySpace c then
      if acc.isEmpty then pySplitAux cs []
      else acc.reverse :: pySplitAux cs []
    else pySplitAux cs (c :: acc)

/-- Python's `s.split()` with no argument: maximal runs of non-whitespace. -/
def pySplit (s : List Char) : List (List Char) := pySplitAux s []

/-- Python's `" ".join(ws)`. -/
def joinSpace : List (List Char) → List Char
  | [] => []
  | [w] => w
  | w :: ws => w ++ ' ' :: joinSpace ws

/-- Python's `s.strip()` with no argument (trim whitespace at both ends). -/
def pyStrip (s : List Char) : List Char :=
  ((s.dropWhile isPySpace).reverse.dropWhile isPySpace).reverse

/-- The dictionary `{"query": ..., "explanation": ...}` the translators return. -/
structure TranslationResult where
  query : List Char
  explanation : List Char
deriving DecidableEq, Repr

/-- The `prod_map` table of `translate_query_heuristic`, in source order. -/
def prod_map : List (List Char × List Char) :=
  [("cisco".toList, "product:cisco".toList),
   ("apache".toList, "product:apache".toList),
   ("nginx".toList, "product:nginx".toList),
   ("mikrotik".toList, "product:mikrotik".toList),
   ("rdp".toList, "port:3389".toList),
   ("ssh".toList, "port:22".toList),
   ("ftp".toList, "port:21".toList)]

/-- The `country_map` table of `translate_query_heuristic`, in source order;
the second component is the ISO code, the emitted fragment is
`"country:" ++ code`. -/
def country_map : List (List Char × List Char) :=
  [("chile".toList, "CL".toList),
   ("argentina".toList, "AR".toList),
   ("mexico".toList, "MX".toList),
   ("méxico".toList, "MX".toList),
   ("españa".toList, "ES".toList),
   ("peru".toList, "PE".toList),
   ("perú".toList, "PE".toList),
   ("colombia".toList, "CO".toList),
   ("brasil".toList, "BR".toList),
   ("uruguay".toList, "UY".toList)]

/-- The accumulator `parts` built by the two `for` loops of
`translate_query_heuristic`: for each table entry whose trigger occurs in
the lowercased question, its fragment, in table order. -/
def heuristic_parts (question : List Char) : List (List Char) :=
  let q := pyLower question
  (prod_map.filter (fun p => isSubstr p.1 q)).map (fun p => p.2)
    ++ (country_map.filter (fun p => isSubstr p.1 q)).map
        (fun p => "country:".toList ++ p.2)

/-- `translate_query_heuristic` from the source: lowercase, collect matching
fragments, else whitespace-normalize; final `strip()`-or-fallback guard. -/
def translate_query_heuristic (question : List Char) : TranslationResult :=
  let q := pyLower question
  let parts := heuristic_parts question
  let query := if parts.isEmpty then joinSpace (pySplit q) else joinSpace parts
  { query := if (pyStrip query).isEmpty then q else pyStrip query
    explanation := "Traducción heurística sin IA.".toList }

/-- `translate_query_openai` from the source. The interaction with the
environment is made explicit: `openai_installed` is the outcome of
`ensure_openai_installed()`, `client_available` the success of
`from openai ...` obtaining `OpenAI`, and `svc` the outcome of client
construction plus the chat-completion request — `none` when any exception
is raised there, `some content` when the request returns message content. -/
def translate_query_openai (question api_key : List Char)
    (openai_installed client_available : Bool)
    (svc : Option (List Char)) : TranslationResult :=
  if api_key.isEmpty then translate_query_heuristic question
  else if !openai_installed then translate_query_heuristic question
  else if !client_available then translate_query_heuristic question
  else
    match svc with
    | none => translate_query_heuristic question
    | some content =>
      let query := pyStrip content
      if query.isEmpty then translate_query_heuristic question
      else { query := query
             explanation := "Traducción usando OpenAI (gpt-4o-mini).".toList }

/-- `translate_query` from the source: dispatch on truthiness of `openai_key`. -/
def translate_query (question openai_key : List Char)
    (openai_installed client_available : Bool)
    (svc : Option (List Char)) : TranslationResult :=
  if !openai_key.isEmpty then
    translate_query_openai question openai_key openai_installed client_available svc
  else translate_query_heuristic question

/-- All fragments the two tables can ever emit, one slot per table entry,
in emission order. -/
def allFragments : List (List Char) :=
  prod_map.map (fun p => p.2)
    ++ country_map.map (fun p => "country:".toList ++ p.2)

/-! ### Substring lemmas -/

theorem strPre_append_self (x z : List Char) : strPre x (x ++ z) = true := by
  induction x with
  | nil => rfl
  | cons c cs ih => simp [strPre, ih]

theorem isSubstr_of_strPre {n h : List Char} (hp : strPre n h = true) :
    isSubstr n h = true := by
  cases h with
  | nil => cases n with
    | nil => rfl
    | cons c cs => simp [strPre] at hp
  | cons c t => simp [isSubstr, hp]

theorem isSubstr_cons {n t : List Char} (c : Char) (hs : isSubstr n t = true) :
    isSubstr n (c :: t) = true := by
  simp [isSubstr, hs]

theorem isSubstr_append_left {n t : List Char} (a : List Char)
    (hs : isSubstr n t = true) : isSubstr n (a ++ t) = true := by
  induction a with
  | nil => exact hs
  | cons c cs ih => exact isSubstr_cons c ih

theorem isSubstr_self_append (x z : List Char) : isSubstr x (x ++ z) = true :=
  isSubstr_of_strPre (strPre_append_self x z)

theorem isSubstr_joinSpace_of_mem {x : List Char} {ps : List (List Char)}
    (hx : x ∈ ps) : isSubstr x (joinSpace ps) = true := by
  induction ps with
  | nil => cases hx
  | cons y rest ih =>
    cases rest with
    | nil =>
      rcases List.mem_singleton.mp hx with rfl
      have := isSubstr_self_append x []
      simpa [joinSpace] using this
    | cons v vs =>
      rcases List.mem_cons.mp hx with rfl | hmem
      · exact (by simpa [joinSpace] using
          isSubstr_self_append x (' ' :: joinSpace (v :: vs)))
      · have h1 := ih hmem
        have h2 := isSubstr_cons ' ' h1
        simpa [joinSpace] using isSubstr_append_left y h2

/-! ### Occurrence-count lemmas -/

theorem countOccur_cons_le (n : List Char) (c : Char) (t : List Char) :
    countOccur n t ≤ countOccur n (c :: t) := by
  simp only [countOccur]
  omega

theorem countOccur_append_le (n a b : List Char) :
    countOccur n b ≤ countOccur n (a ++ b) := by
  induction a with
  | nil => simp
  | cons c cs ih => exact le_trans ih (countOccur_cons_le n c (cs ++ b))

theorem countOccur_nil_of_ne {x : List Char} (hx : x ≠ []) : countOccur x [] = 0 := by
  cases x with
  | nil => exact absurd rfl hx
  | cons c cs => simp [countOccur, strPre]

theorem countOccur_self_append {x : List Char} (b : List Char) (hx : x ≠ []) :
    1 + countOccur x b ≤ countOccur x (x ++ b) := by
  cases x with
  | nil => exact absurd rfl hx
  | cons c cs =>
    have hpre : strPre (c :: cs) ((c :: cs) ++ b) = true := strPre_append_self _ b
    have heq : countOccur (c :: cs) ((c :: cs) ++ b)
        = (if strPre (c :: cs) ((c :: cs) ++ b) = true then 1 else 0)
          + countOccur (c :: cs) (cs ++ b) := rfl
    have hle := countOccur_append_le (c :: cs) cs b
    rw [heq, if_pos hpre]
    omega

theorem count_le_countOccur_joinSpace {x : List Char} (ps : List (List Char))
    (hx : x ≠ []) : ps.count x ≤ countOccur x (joinSpace ps) := by
  induction ps with
  | nil => simp [joinSpace]
  | cons y rest ih =>
    have hstep : (if y = x then 1 else 0) + countOccur x (joinSpace rest)
        ≤ countOccur x (joinSpace (y :: rest)) := by
      cases rest with
      | nil =>
        by_cases hyx : y = x
        · subst hyx
          have := countOccur_self_append (x := y) [] hx
          simpa [joinSpace, countOccur] using this
        · simp only [hyx, if_neg, not_false_iff, joinSpace]
          have h0 := countOccur_nil_of_ne hx
          have hle : countOccur x [] ≤ countOccur x y := by
            rw [h0]; exact Nat.zero_le _
          omega
      | cons v vs =>
        have hjoin : joinSpace (y :: v :: vs) = y ++ ' ' :: joinSpace (v :: vs) := rfl
        by_cases hyx : y = x
        · subst hyx
          rw [hjoin]
          have h1 := countOccur_self_append (x := y) (' ' :: joinSpace (v :: vs)) hx
          have h2 := countOccur_cons_le y ' ' (joinSpace (v :: vs))
          simp only [if_pos]
          omega
        · rw [hjoin]
          have h1 := countOccur_append_le x y (' ' :: joinSpace (v :: vs))
          have h2 := countOccur_cons_le x ' ' (joinSpace (v :: vs))
          simp only [hyx, if_neg, not_false_iff]
          omega
    have hcount : (y :: rest).count x = rest.count x + (if y = x then 1 else 0) := by
      rcases eq_or_ne y x with rfl | hyx
      · simp [List.count_cons]
      · have hxy : x ≠ y := Ne.symm hyx
        simp [List.count_cons, hyx, hxy]
    omega

/-! ### Strip / join lemmas -/

/-- A word that is non-empty and contains no Python whitespace character. -/
def goodWord (w : List Char) : Bool :=
  !w.isEmpty && w.all (fun c => !isPySpace c)

theorem exists_last_mem {l : List Char} (hl : l ≠ []) :
    ∃ u d, l = u ++ [d] ∧ d ∈ l := by
  induction l with
  | nil => exact absurd rfl hl
  | cons c cs ih =>
    cases cs with
    | nil => exact ⟨[], c, rfl, List.mem_singleton_self c⟩
    | cons v vs =>
      obtain ⟨u, d, hu, hd⟩ := ih (by simp)
      exact ⟨c :: u, d, by rw [hu]; simp, List.mem_cons_of_mem c hd⟩

theorem pyStrip_eq_self {s : List Char} {c d : Char} {t u : List Char}
    (hhead : s = c :: t) (hc : isPySpace c = false)
    (hlast : s = u ++ [d]) (hd : isPySpace d = false) :
    pyStrip s = s := by
  have h1 : s.dropWhile isPySpace = s := by
    rw [hhead]
    simp [List.dropWhile, hc]
  have h2 : s.reverse.dropWhile isPySpace = s.reverse := by
    rw [hlast, List.reverse_append]
    simp [List.dropWhile, hd]
  unfold pyStrip
  rw [h1, h2, List.reverse_reverse]

theorem joinSpace_head {w : List Char} {ps : List (List Char)} (_hw : w ≠ []) :
    ∃ r, joinSpace (w :: ps) = w ++ r := by
  cases ps with
  | nil => exact ⟨[], by simp [joinSpace]⟩
  | cons v vs => exact ⟨' ' :: joinSpace (v :: vs), rfl⟩

theorem joinSpace_last {ps : List (List Char)} (hps : ps ≠ [])
    (hw : ∀ w ∈ ps, w ≠ []) :
    ∃ u d w, joinSpace ps = u ++ [d] ∧ w ∈ ps ∧ d ∈ w := by
  induction ps with
  | nil => exact absurd rfl hps
  | cons y rest ih =>
    cases rest with
    | nil =>
      obtain ⟨u, d, hu, hd⟩ := exists_last_mem (hw y (List.mem_singleton_self y))
      exact ⟨u, d, y, by simpa [joinSpace] using hu, List.mem_singleton_self y, hd⟩
    | cons v vs =>
      obtain ⟨u, d, w, hu, hwmem, hd⟩ := ih (by simp)
        (fun w hmem => hw w (List.mem_cons_of_mem y hmem))
      refine ⟨y ++ ' ' :: u, d, w, ?_, List.mem_cons_of_mem y hwmem, hd⟩
      show joinSpace (y :: v :: vs) = y ++ ' ' :: u ++ [d]
      have : joinSpace (y :: v :: vs) = y ++ ' ' :: joinSpace (v :: vs) := rfl
      rw [this, hu]
      simp

theorem joinSpace_ne_nil {ps : List (List Char)} (hps : ps ≠ [])
    (hw : ∀ w ∈ ps, w ≠ []) : joinSpace ps ≠ [] := by
  cases ps with
  | nil => exact absurd rfl hps
  | cons y rest =>
    obtain ⟨r, hr⟩ := @joinSpace_head y rest (hw y (List.mem_cons_self y rest))
    rw [hr]
    have := hw y (List.mem_cons_self y rest)
    cases y with
    | nil => exact absurd rfl this
    | cons c cs => simp

theorem pyStrip_joinSpace {ps : List (List Char)} (hps : ps ≠ [])
    (hg : ∀ w ∈ ps, goodWord w = true) :
    pyStrip (joinSpace ps) = joinSpace ps := by
  have hw : ∀ w ∈ ps, w ≠ [] := by
    intro w hmem
    have := hg w hmem
    simp [goodWord] at this
    intro hnil
    rw [hnil] at this
    simp at this
  have hnosp : ∀ w ∈ ps, ∀ c ∈ w, isPySpace c = false := by
    intro w hmem c hc
    have := hg w hmem
    simp [goodWord] at this
    exact this.2 c hc
  cases ps with
  | nil => exact absurd rfl hps
  | cons y rest =>
    have hy := hw y (List.mem_cons_self y rest)
    obtain ⟨c, w', rfl⟩ : ∃ c w', y = c :: w' := by
      cases y with
      | nil => exact absurd rfl hy
      | cons c w' => exact ⟨c, w', rfl⟩
    obtain ⟨r, hr⟩ := @joinSpace_head (c :: w') rest hy
    obtain ⟨u, d, w, hu, hwmem, hd⟩ := @joinSpace_last ((c :: w') :: rest)
      (by simp) hw
    exact pyStrip_eq_self (c := c) (t := w' ++ r)
      (by rw [hr]; simp)
      (hnosp _ (List.mem_cons_self _ rest) c (List.mem_cons_self c w'))
      hu (hnosp w hwmem d hd)

/-! ### pySplit produces good words -/

theorem goodWord_reverse_of_acc {acc : List Char} (hne : acc ≠ [])
    (hacc : ∀ c ∈ acc, isPySpace c = false) : goodWord acc.reverse = true := by
  simp only [goodWord, Bool.and_eq_true, Bool.not_eq_true', List.isEmpty_eq_false,
    ne_eq, List.reverse_eq_nil_iff, List.all_eq_true, List.mem_reverse]
  exact ⟨hne, fun c hc => by simp [hacc c hc]⟩

theorem pySplitAux_goodWords (s : List Char) :
    ∀ acc, (∀ c ∈ acc, isPySpace c = false) →
      ∀ w ∈ pySplitAux s acc, goodWord w = true := by
  induction s with
  | nil =>
    intro acc hacc w hmem
    by_cases h : acc.isEmpty = true
    · rw [pySplitAux, if_pos h] at hmem
      cases hmem
    · rw [pySplitAux, if_neg h] at hmem
      rcases List.mem_singleton.mp hmem with rfl
      exact goodWord_reverse_of_acc (List.isEmpty_eq_false.mp
        (Bool.not_eq_true _ ▸ h)) hacc
  | cons c cs ih =>
    intro acc hacc w hmem
    by_cases hsp : isPySpace c = true
    · by_cases h : acc.isEmpty = true
      · rw [pySplitAux, if_pos hsp, if_pos h] at hmem
        exact ih [] (by intro x hx; cases hx) w hmem
      · rw [pySplitAux, if_pos hsp, if_neg h] at hmem
        rcases List.mem_cons.mp hmem with rfl | hmem'
        · exact goodWord_reverse_of_acc (List.isEmpty_eq_false.mp
            (Bool.not_eq_true _ ▸ h)) hacc
        · exact ih [] (by intro x hx; cases hx) w hmem'
    · rw [pySplitAux, if_neg hsp] at hmem
      refine ih (c :: acc) ?_ w hmem
      intro x hx
      rcases List.mem_cons.mp hx with rfl | hx'
      · exact Bool.not_eq_true _ ▸ hsp
      · exact hacc x hx'

theorem pySplit_goodWords (s : List Char) :
    ∀ w ∈ pySplit s, goodWord w = true :=
  pySplitAux_goodWords s [] (by intro x hx; cases hx)

/-! ### Facts about the fragment accumulator -/

theorem heuristic_parts_sublist (question : List Char) :
    List.Sublist (heuristic_parts question) allFragments := by
  unfold heuristic_parts allFragments
  exact List.Sublist.append
    ((List.filter_sublist _).map _) ((List.filter_sublist _).map _)

theorem allFragments_good : ∀ w ∈ allFragments, goodWord w = true := by decide

theorem heuristic_parts_good (question : List Char) :
    ∀ w ∈ heuristic_parts question, goodWord w = true :=
  fun w hmem =>
    allFragments_good w ((heuristic_parts_sublist question).subset hmem)

theorem goodWord_ne_nil {w : List Char} (hg : goodWord w = true) : w ≠ [] := by
  intro hnil
  rw [hnil] at hg
  simp [goodWord] at hg

theorem mem_parts_of_prod {question : List Char} {e : List Char × List Char}
    (he : e ∈ prod_map) (h : isSubstr e.1 (pyLower question) = true) :
    e.2 ∈ heuristic_parts question := by
  unfold heuristic_parts
  exact List.mem_append_left _
    (List.mem_map_of_mem _ (List.mem_filter.mpr ⟨he, h⟩))

theorem mem_parts_of_country {question : List Char} {e : List Char × List Char}
    (he : e ∈ country_map) (h : isSubstr e.1 (pyLower question) = true) :
    ("country:".toList ++ e.2) ∈ heuristic_parts question := by
  unfold heuristic_parts
  exact List.mem_append_right _
    (List.mem_map_of_mem _ (List.mem_filter.mpr ⟨he, h⟩))

/-- The `query` field of the heuristic result, with the two `if`s of the
source spelled out (definitional). -/
theorem heuristic_query_shape (question : List Char) :
    (translate_query_heuristic question).query =
      if (pyStrip (if (heuristic_parts question).isEmpty
            then joinSpace (pySplit (pyLower question))
            else joinSpace (heuristic_parts question))).isEmpty
      then pyLower question
      else pyStrip (if (heuristic_parts question).isEmpty
            then joinSpace (pySplit (pyLower question))
            else joinSpace (heuristic_parts question)) := rfl

/-- When at least one trigger fires, the query is exactly the space-join of
the accumulated fragments, in order. -/
theorem heuristic_query_of_parts_ne_nil {question : List Char}
    (hne : heuristic_parts question ≠ []) :
    (translate_query_heuristic question).query = joinSpace (heuristic_parts question) := by
  have hempty : (heuristic_parts question).isEmpty = false :=
    List.isEmpty_eq_false.mpr hne
  have hstrip : pyStrip (joinSpace (heuristic_parts question))
      = joinSpace (heuristic_parts question) :=
    pyStrip_joinSpace hne (heuristic_parts_good question)
  have hjne : joinSpace (heuristic_parts question) ≠ [] :=
    joinSpace_ne_nil hne
      (fun w hmem => goodWord_ne_nil (heuristic_parts_good question w hmem))
  rw [heuristic_query_shape, hempty]
  simp only [Bool.false_eq_true, if_false, hstrip, List.isEmpty_eq_false.mpr hjne]

/-! ### Claim theorems -/

/-- C5: on the input "servidores apache en españa" the heuristic translator
returns the query "product:apache country:ES" — the product fragment
precedes the country fragment, each in table order. -/
theorem claim_C5_apache_spain :
    (translate_query_heuristic "servidores apache en españa".toList).query
      = "product:apache country:ES".toList := rfl

/-- C7: on the input "cámaras ip en chile" the heuristic translator returns
exactly the query "country:CL" (no product/port trigger fires) together
with the fixed heuristic explanation string. -/
theorem claim_C7_camaras_chile :
    (translate_query_heuristic "cámaras ip en chile".toList).query
        = "country:CL".toList ∧
    (translate_query_heuristic "cámaras ip en chile".toList).explanation
        = "Traducción heurística sin IA.".toList :=
  ⟨rfl, rfl⟩

/-- C9: the heuristic translator is deterministic and stateless — two calls
on the same question return identical TranslationResult values, with equal
query and equal explanation fields. -/
theorem claim_C9_deterministic (question : List Char) :
    translate_query_heuristic question = translate_query_heuristic question ∧
    (translate_query_heuristic question).query
        = (translate_query_heuristic question).query ∧
    (translate_query_heuristic question).explanation
        = (translate_query_heuristic question).explanation :=
  ⟨rfl, rfl, rfl⟩

/-- C8: each trigger entry of the two keyword tables contributes its fragment
at most once: the accumulated fragment list is a sublist of the per-entry
fragment list `allFragments` (one slot per table entry, in table order), so
no entry is emitted twice however often its trigger occurs in the question. -/
theorem claim_C8_no_duplicate_emission (question : List Char) :
    List.Sublist (heuristic_parts question) allFragments ∧
    ∀ x : List Char, (heuristic_parts question).count x ≤ allFragments.count x :=
  ⟨heuristic_parts_sublist question,
   fun x => (heuristic_parts_sublist question).count_le x⟩

/-- C6: whenever the lowercased question contains both "chile" and "rdp",
in either order, the heuristic query contains both the fragment
"country:CL" and the fragment "port:3389". -/
theorem claim_C6_chile_rdp (question : List Char)
    (h1 : isSubstr "chile".toList (pyLower question) = true)
    (h2 : isSubstr "rdp".toList (pyLower question) = true) :
    isSubstr "country:CL".toList (translate_query_heuristic question).query = true ∧
    isSubstr "port:3389".toList (translate_query_heuristic question).query = true := by
  have he1 : ("rdp".toList, "port:3389".toList) ∈ prod_map := by decide
  have hport : "port:3389".toList ∈ heuristic_parts question :=
    mem_parts_of_prod he1 h2
  have he2 : ("chile".toList, "CL".toList) ∈ country_map := by decide
  have hcl : "country:CL".toList ∈ heuristic_parts question :=
    mem_parts_of_country he2 h1
  have hne : heuristic_parts question ≠ [] := List.ne_nil_of_mem hport
  rw [heuristic_query_of_parts_ne_nil hne]
  exact ⟨isSubstr_joinSpace_of_mem hcl, isSubstr_joinSpace_of_mem hport⟩

/-- Witness for C6 at the concrete question "rdp y chile". -/
theorem claim_C6_chile_rdp_witness :
    isSubstr "country:CL".toList
        (translate_query_heuristic "rdp y chile".toList).query = true ∧
    isSubstr "port:3389".toList
        (translate_query_heuristic "rdp y chile".toList).query = true :=
  claim_C6_chile_rdp "rdp y chile".toList (by decide) (by decide)

/-- C1 counterexample: on the empty question the heuristic query is empty,
and on the all-whitespace question "   " the query is the lowercased
original "   " itself, not the whitespace-normalized string. -/
theorem claim_C1_counterexample :
    (translate_query_heuristic "".toList).query = [] ∧
    (translate_query_heuristic "   ".toList).query = "   ".toList ∧
    (translate_query_heuristic "   ".toList).query
      ≠ joinSpace (pySplit (pyLower "   ".toList)) :=
  ⟨rfl, rfl, by decide⟩

/-- C1 (amended): for every non-empty question the heuristic query is
non-empty; when no trigger fires and the whitespace-normalized lowercased
question is non-empty, the query equals that normalized string; when no
trigger fires and the normalization is empty (empty or all-whitespace
question), the query is the lowercased question unchanged. -/
theorem claim_C1_query_nonempty (question : List Char) :
    (question ≠ [] → (translate_query_heuristic question).query ≠ []) ∧
    (heuristic_parts question = [] →
      joinSpace (pySplit (pyLower question)) ≠ [] →
      (translate_query_heuristic question).query
        = joinSpace (pySplit (pyLower question))) ∧
    (heuristic_parts question = [] →
      joinSpace (pySplit (pyLower question)) = [] →
      (translate_query_heuristic question).query = pyLower question) := by
  refine ⟨?_, ?_, ?_⟩
  · intro hq
    rw [heuristic_query_shape]
    by_cases h : (pyStrip (if (heuristic_parts question).isEmpty
        then joinSpace (pySplit (pyLower question))
        else joinSpace (heuristic_parts question))).isEmpty = true
    · rw [if_pos h]
      unfold pyLower
      intro hcontra
      exact hq (List.eq_nil_of_map_eq_nil hcontra)
    · rw [if_neg h]
      intro hcontra
      apply h
      rw [hcontra]
      rfl
  · intro hparts hnorm
    have hsne : pySplit (pyLower question) ≠ [] := by
      intro h0
      apply hnorm
      rw [h0]
      rfl
    have hstrip : pyStrip (joinSpace (pySplit (pyLower question)))
        = joinSpace (pySplit (pyLower question)) :=
      pyStrip_joinSpace hsne (pySplit_goodWords (pyLower question))
    rw [heuristic_query_shape, hparts]
    simp only [List.isEmpty_nil, if_true, hstrip,
      List.isEmpty_eq_false.mpr hnorm, Bool.false_eq_true, if_false]
  · intro hparts hnorm0
    rw [heuristic_query_shape, hparts, hnorm0]
    rfl

/-- Witness for C1 (amended) at the questions "hola" and " ". -/
theorem claim_C1_query_nonempty_witness :
    (translate_query_heuristic "hola".toList).query ≠ [] ∧
    (translate_query_heuristic "hola".toList).query
      = joinSpace (pySplit (pyLower "hola".toList)) ∧
    (translate_query_heuristic " ".toList).query = pyLower " ".toList :=
  ⟨(claim_C1_query_nonempty "hola".toList).1 (by decide),
   (claim_C1_query_nonempty "hola".toList).2.1 (by decide) (by decide),
   (claim_C1_query_nonempty " ".toList).2.2 (by decide) (by decide)⟩

/-- C2: the translation core is total and never propagates an internal
fault — under every combination of credential, installation outcome,
client availability and service outcome, `translate_query_openai` returns
either the heuristic result or a model result built from non-blank service
content, and `translate_query` returns one of its two translators'
results. -/
theorem claim_C2_total_never_raises (question api_key : List Char)
    (openai_installed client_available : Bool) (svc : Option (List Char)) :
    (translate_query_openai question api_key openai_installed client_available svc
        = translate_query_heuristic question ∨
      ∃ content, svc = some content ∧ (pyStrip content).isEmpty = false ∧
        translate_query_openai question api_key openai_installed client_available svc
          = { query := pyStrip content
              explanation := "Traducción usando OpenAI (gpt-4o-mini).".toList }) ∧
    (translate_query question api_key openai_installed client_available svc
        = translate_query_heuristic question ∨
      translate_query question api_key openai_installed client_available svc
        = translate_query_openai question api_key openai_installed
            client_available svc) := by
  constructor
  · by_cases hk : api_key.isEmpty = true
    · left; simp [translate_query_openai, hk]
    · cases hi : openai_installed
      · left; simp [translate_query_openai, hk]
      · cases hc : client_available
        · left; simp [translate_query_openai, hk]
        · cases svc with
          | none => left; simp [translate_query_openai, hk]
          | some content =>
            by_cases hs : (pyStrip content).isEmpty = true
            · left; simp [translate_query_openai, hk, hs]
            · right
              refine ⟨content, rfl, by simpa using hs, ?_⟩
              simp [translate_query_openai, hk, hs]
  · by_cases hk : api_key.isEmpty = true
    · left; simp [translate_query, hk]
    · right; simp [translate_query, hk]

/-- C3: with a non-empty model credential, when the service call raises
(`svc = none`) or returns whitespace-only content, `translate_query_openai`
returns exactly the heuristic result on the same question. -/
theorem claim_C3_failure_equals_heuristic (question api_key : List Char)
    (openai_installed client_available : Bool) (svc : Option (List Char))
    (_hkey : api_key ≠ [])
    (hfail : svc = none ∨ ∃ content, svc = some content ∧ pyStrip content = []) :
    translate_query_openai question api_key openai_installed client_available svc
      = translate_query_heuristic question := by
  rcases hfail with rfl | ⟨content, rfl, hstrip⟩
  · simp [translate_query_openai]
  · simp [translate_query_openai, hstrip]

/-- Witness for C3 at question "hola", credential "k", a raising service. -/
theorem claim_C3_failure_equals_heuristic_witness :
    translate_query_openai "hola".toList "k".toList true true none
      = translate_query_heuristic "hola".toList :=
  claim_C3_failure_equals_heuristic "hola".toList "k".toList true true none
    (by decide) (Or.inl rfl)

/-- C4: with an empty model credential the dispatcher returns the heuristic
result whatever the (never consulted) service outcome is — no network
access; with a non-empty credential it invokes the model-backed
translator. -/
theorem claim_C4_dispatcher (question api_key : List Char)
    (openai_installed client_available : Bool) (svc : Option (List Char)) :
    translate_query question [] openai_installed client_available svc
        = translate_query_heuristic question ∧
    (api_key ≠ [] →
      translate_query question api_key openai_installed client_available svc
        = translate_query_openai question api_key openai_installed
            client_available svc) := by
  constructor
  · simp [translate_query]
  · intro hk
    simp [translate_query, List.isEmpty_eq_false.mpr hk]

/-- Witness for C4 at question "hola" with credentials "" and "k". -/
theorem claim_C4_dispatcher_witness :
    translate_query "hola".toList [] true true none
        = translate_query_heuristic "hola".toList ∧
    translate_query "hola".toList "k".toList true true none
        = translate_query_openai "hola".toList "k".toList true true none :=
  ⟨(claim_C4_dispatcher "hola".toList "k".toList true true none).1,
   (claim_C4_dispatcher "hola".toList "k".toList true true none).2 (by decide)⟩

theorem two_le_count_map_filter
    {l : List (List Char × List Char)} {p : List Char × List Char → Bool}
    {f : List Char × List Char → List Char}
    {e₁ e₂ : List Char × List Char} {y : List Char}
    (hsub : List.Sublist [e₁, e₂] l) (hp1 : p e₁ = true) (hp2 : p e₂ = true)
    (hf1 : f e₁ = y) (hf2 : f e₂ = y) :
    2 ≤ ((l.filter p).map f).count y := by
  have hfil0 : [e₁, e₂].filter p = [e₁, e₂] := by
    simp [List.filter_cons, hp1, hp2]
  have hfil : List.Sublist [e₁, e₂] (l.filter p) := hfil0 ▸ hsub.filter p
  have hm := hfil.map f
  have hmap0 : [e₁, e₂].map f = [y, y] := by simp [hf1, hf2]
  rw [hmap0] at hm
  have hcnt := hm.count_le y
  simpa using hcnt

/-- C10: when the lowercased question contains both "peru" and "perú", the
two distinct country-table entries both fire: the fragment "country:PE" is
accumulated exactly twice and occurs at least twice in the final query —
distinct triggers mapping to the same fragment are not deduplicated. -/
theorem claim_C10_accent_variants_not_deduplicated (question : List Char)
    (h1 : isSubstr "peru".toList (pyLower question) = true)
    (h2 : isSubstr "perú".toList (pyLower question) = true) :
    (heuristic_parts question).count "country:PE".toList = 2 ∧
    2 ≤ countOccur "country:PE".toList (translate_query_heuristic question).query := by
  have hsub0 : List.Sublist
      [("peru".toList, "PE".toList), ("perú".toList, "PE".toList)] country_map := by
    decide
  have hdef : heuristic_parts question
      = (prod_map.filter (fun p => isSubstr p.1 (pyLower question))).map
          (fun p => p.2)
        ++ (country_map.filter (fun p => isSubstr p.1 (pyLower question))).map
            (fun p => "country:".toList ++ p.2) := rfl
  have h2le : 2 ≤ ((country_map.filter
        (fun p => isSubstr p.1 (pyLower question))).map
        (fun p => "country:".toList ++ p.2)).count "country:PE".toList :=
    @two_le_count_map_filter country_map
      (fun p => isSubstr p.1 (pyLower question))
      (fun p => "country:".toList ++ p.2)
      ("peru".toList, "PE".toList) ("perú".toList, "PE".toList)
      "country:PE".toList hsub0 h1 h2 rfl rfl
  have hup : (heuristic_parts question).count "country:PE".toList ≤ 2 := by
    have hle := (heuristic_parts_sublist question).count_le "country:PE".toList
    have hall : allFragments.count "country:PE".toList = 2 := by decide
    omega
  have hcnt : (heuristic_parts question).count "country:PE".toList = 2 := by
    rw [hdef, List.count_append]
    rw [hdef, List.count_append] at hup
    omega
  refine ⟨hcnt, ?_⟩
  have hne : heuristic_parts question ≠ [] := by
    intro h0
    rw [h0] at hcnt
    simp at hcnt
  rw [heuristic_query_of_parts_ne_nil hne]
  have hocc := count_le_countOccur_joinSpace
    (x := "country:PE".toList) (heuristic_parts question) (by decide)
  omega

/-- Witness for C10 at the concrete question "peru perú". -/
theorem claim_C10_accent_variants_not_deduplicated_witness :
    (heuristic_parts "peru perú".toList).count "country:PE".toList = 2 ∧
    2 ≤ countOccur "country:PE".toList
        (translate_query_heuristic "peru perú".toList).query :=
  claim_C10_accent_variants_not_deduplicated "peru perú".toList
    (by decide) (by decide)

end ShodanAI
